import Mathlib

/-!
Verification of StreamCalc (`calc.py`), a command-line stream calculator.
The transformations, parser filter, command registry, histogram logic and
driver behaviour are shallowly embedded over `ℚ` (Python floats become
rationals; generators become lists; raised `ValueError`s become
`Except.error`).  Each claim of the specification is settled by a theorem
below.
-/

namespace StreamCalc

/-! ## `s_mean_var` and its projections (calc.py lines 104-124) -/

/-- The state of the loop in `s_mean_var`: the count `m_n` and the running
values `m_oldM`, `m_newM`, `m_oldS`, `m_newS`. -/
structure MVState where
  n : ℕ
  oldM : ℚ
  newM : ℚ
  oldS : ℚ
  newS : ℚ

/-- The initial values `m_n = 0`, `m_oldM = m_newM = m_oldS = m_newS = 0.0`. -/
def mvInit : MVState := ⟨0, 0, 0, 0, 0⟩

/-- One iteration of the loop body of `s_mean_var`: increment `m_n`; on the
first element set `m_oldM = m_newM = x` and `m_oldS = 0.0` (leaving `m_newS`
at its initial `0.0`); afterwards apply the update
`m_newM = m_oldM + (x - m_oldM)/m_n`,
`m_newS = m_oldS + (x - m_oldM)*(x - m_newM)` and shift new into old. -/
def mvStep (st : MVState) (x : ℚ) : MVState :=
  let n := st.n + 1
  if n = 1 then
    { n := n, oldM := x, newM := x, oldS := 0, newS := st.newS }
  else
    let nM := st.oldM + (x - st.oldM) / (n : ℚ)
    let nS := st.oldS + (x - st.oldM) * (x - nM)
    { n := n, oldM := nM, newM := nM, oldS := nS, newS := nS }

/-- The pair `(mean, var)` that `s_mean_var` yields after its loop:
`mean = m_newM if m_n > 0 else 0.0` and
`var = m_newS / (m_n - 1) if m_n > 1 else 0.0`. -/
def meanVar (data : List ℚ) : ℚ × ℚ :=
  let st := data.foldl mvStep mvInit
  (if st.n > 0 then st.newM else 0,
   if st.n > 1 then st.newS / ((st.n : ℚ) - 1) else 0)

/-- `s_mean_var` yields exactly one pair. -/
def s_mean_var (data : List ℚ) : List (ℚ × ℚ) := [meanVar data]

/-- `s_mean` projects the first component of `s_mean_var`'s single pair. -/
def s_mean (data : List ℚ) : List ℚ := [(meanVar data).1]

/-- `s_var` projects the second component of `s_mean_var`'s single pair. -/
def s_var (data : List ℚ) : List ℚ := [(meanVar data).2]

/-- `s_std` yields `m.sqrt` of `s_var`'s single value. -/
noncomputable def s_std (data : List ℚ) : List ℝ :=
  [Real.sqrt (((meanVar data).2 : ℚ) : ℝ)]

/-- Welford's recurrence as the specification words it (the spec-side
definition against which `s_mean_var` is compared): the state is
`(k, M_k, S_k)` and, for the k-th value x (1-indexed),
`M_k = M_(k-1) + (x - M_(k-1))/k` and
`S_k = S_(k-1) + (x - M_(k-1))*(x - M_k)`. -/
def welfordStep (st : ℕ × ℚ × ℚ) (x : ℚ) : ℕ × ℚ × ℚ :=
  let k := st.1 + 1
  let M := st.2.1 + (x - st.2.1) / (k : ℚ)
  (k, M, st.2.2 + (x - st.2.1) * (x - M))

/-- The Welford state `(n, M_n, S_n)` after the whole sequence, from
`(0, 0, 0)`. -/
def welford (data : List ℚ) : ℕ × ℚ × ℚ := data.foldl welfordStep (0, 0, 0)

/-- The spec's mean: `M_n` (which is `0` for the empty sequence since
`M_0 = 0`). -/
def specMean (data : List ℚ) : ℚ := (welford data).2.1

/-- The spec's variance: `S_n / (n-1)` for `n > 1`, and `0` otherwise. -/
def specVar (data : List ℚ) : ℚ :=
  let st := welford data
  if 1 < st.1 then st.2.2 / ((st.1 : ℚ) - 1) else 0

lemma welford_count (l : List ℚ) (k : ℕ) (M S : ℚ) :
    (l.foldl welfordStep (k, M, S)).1 = k + l.length := by
  induction l generalizing k M S with
  | nil => simp
  | cons x xs ih =>
    simp only [List.foldl_cons, welfordStep, List.length_cons]
    rw [ih]
    omega

lemma mvFold_eq_welford (l : List ℚ) (k : ℕ) (M S : ℚ) (hk : 1 ≤ k) :
    l.foldl mvStep ⟨k, M, M, S, S⟩ =
      ⟨(l.foldl welfordStep (k, M, S)).1,
       (l.foldl welfordStep (k, M, S)).2.1,
       (l.foldl welfordStep (k, M, S)).2.1,
       (l.foldl welfordStep (k, M, S)).2.2,
       (l.foldl welfordStep (k, M, S)).2.2⟩ := by
  induction l generalizing k M S with
  | nil => rfl
  | cons x xs ih =>
    have hne : ¬ (k + 1 = 1) := by omega
    simp only [List.foldl_cons, mvStep, welfordStep, if_neg hne]
    exact ih (k + 1) _ _ (by omega)

lemma meanVar_spec (l : List ℚ) : meanVar l = (specMean l, specVar l) := by
  cases l with
  | nil => rfl
  | cons x xs =>
    have h1 : (x :: xs).foldl mvStep mvInit = xs.foldl mvStep ⟨1, x, x, 0, 0⟩ := by
      simp only [List.foldl_cons]; rfl
    have h2 : (x :: xs).foldl welfordStep (0, 0, 0) =
        xs.foldl welfordStep (1, x, 0) := by
      simp only [List.foldl_cons, welfordStep]
      norm_num
    have hc : (xs.foldl welfordStep (1, x, 0)).1 = 1 + xs.length :=
      welford_count xs 1 x 0
    have hmain := mvFold_eq_welford xs 1 x 0 (le_refl 1)
    unfold meanVar specMean specVar welford
    rw [h1, h2, hmain]
    have hpos : 0 < (xs.foldl welfordStep (1, x, 0)).1 := by omega
    simp only [if_pos hpos]

/-- Claim C1: for every finite input, `s_mean_var` emits exactly one pair
`(mean, variance)` computed by Welford's recurrence
`M_k = M_(k-1) + (x - M_(k-1))/k`,
`S_k = S_(k-1) + (x - M_(k-1))(x - M_k)`, with `mean = M_n` (0 if the
sequence is empty) and `variance = S_n/(n-1)` for `n > 1` and 0 otherwise;
`s_mean`, `s_var` and `s_std` each project the corresponding component,
`s_std` being the square root of that variance. -/
theorem mean_var_follows_welford (l : List ℚ) :
    s_mean_var l = [(specMean l, specVar l)] ∧
    s_mean l = [specMean l] ∧
    s_var l = [specVar l] ∧
    s_std l = [Real.sqrt ((specVar l : ℚ) : ℝ)] := by
  have h := meanVar_spec l
  refine ⟨?_, ?_, ?_, ?_⟩ <;> simp [s_mean_var, s_mean, s_var, s_std, h]

/-! ## `s_sum`, `s_prod` (calc.py lines 138-146) -/

/-- `s_sum` yields Python's `sum(data)`: a left fold of addition from 0. -/
def s_sum (data : List ℚ) : List ℚ := [data.foldl (· + ·) 0]

/-- `s_prod` starts `prod = 1.0`, multiplies every element in, and yields
the final product. -/
def s_prod (data : List ℚ) : List ℚ := [data.foldl (· * ·) 1]

/-- Claim C2: on an empty input, `s_sum` emits the single value 0 and
`s_prod` emits the single value 1; neither signals an error. -/
theorem sum_prod_on_empty :
    s_sum [] = [(0 : ℚ)] ∧ s_prod [] = [(1 : ℚ)] :=
  ⟨rfl, rfl⟩

/-! ## `s_cumsum`, `s_cumprod` (calc.py lines 126-136) -/

/-- The common loop of `s_cumsum` and `s_cumprod`: carry an accumulator,
combine each element into it, and yield the accumulator after each
element. -/
def runAccum (op : ℚ → ℚ → ℚ) (acc : ℚ) : List ℚ → List ℚ
  | [] => []
  | x :: xs => op acc x :: runAccum op (op acc x) xs

/-- `s_cumsum`: running sums, starting from `s = 0`. -/
def s_cumsum (data : List ℚ) : List ℚ := runAccum (· + ·) 0 data

/-- `s_cumprod`: running products, starting from `prod = 1.0`. -/
def s_cumprod (data : List ℚ) : List ℚ := runAccum (· * ·) 1 data

lemma runAccum_length (op : ℚ → ℚ → ℚ) (l : List ℚ) (acc : ℚ) :
    (runAccum op acc l).length = l.length := by
  induction l generalizing acc with
  | nil => rfl
  | cons x xs ih => simp [runAccum, ih]

lemma runAccum_getD (op : ℚ → ℚ → ℚ) (l : List ℚ) (acc d : ℚ) (i : ℕ)
    (hi : i < l.length) :
    (runAccum op acc l).getD i d = (l.take (i + 1)).foldl op acc := by
  induction l generalizing acc i with
  | nil => simp at hi
  | cons x xs ih =>
    cases i with
    | zero => rfl
    | succ j =>
      have hj : j < xs.length := by simpa using hi
      simpa [runAccum] using ih (op acc x) j hj

lemma runAccum_getLast? (op : ℚ → ℚ → ℚ) (l : List ℚ) (acc : ℚ) (h : l ≠ []) :
    (runAccum op acc l).getLast? = some (l.foldl op acc) := by
  induction l generalizing acc with
  | nil => exact absurd rfl h
  | cons x xs ih =>
    cases xs with
    | nil => rfl
    | cons y ys =>
      have := ih (op acc x) (by simp)
      simpa [runAccum] using this

/-- Claim C7: `s_cumsum` and `s_cumprod` emit exactly one output per input,
in input order, each output being the running sum (resp. product) of the
inputs seen so far; the output length equals the input length and the final
element equals the result of `s_sum` (resp. `s_prod`) on the whole input. -/
theorem cumsum_cumprod_running (l : List ℚ) :
    (s_cumsum l).length = l.length ∧
    (s_cumprod l).length = l.length ∧
    (∀ i, i < l.length →
      (s_cumsum l).getD i 0 = (l.take (i + 1)).foldl (· + ·) 0) ∧
    (∀ i, i < l.length →
      (s_cumprod l).getD i 1 = (l.take (i + 1)).foldl (· * ·) 1) ∧
    (l ≠ [] → (s_cumsum l).getLast? = some ((s_sum l).headI) ∧
              (s_cumprod l).getLast? = some ((s_prod l).headI)) := by
  refine ⟨runAccum_length _ l 0, runAccum_length _ l 1,
    fun i hi => runAccum_getD _ l 0 0 i hi,
    fun i hi => runAccum_getD _ l 1 1 i hi,
    fun h => ⟨?_, ?_⟩⟩
  · simpa [s_sum] using runAccum_getLast? (· + ·) l 0 h
  · simpa [s_prod] using runAccum_getLast? (· * ·) l 1 h

/-! ## `s_max`, `s_min` (calc.py lines 147-148) and the driver's
try/except (lines 292-295) -/

lemma le_foldl_max (l : List ℚ) (b : ℚ) : b ≤ l.foldl max b := by
  induction l generalizing b with
  | nil => exact le_refl b
  | cons y ys ih => exact le_trans (le_max_left b y) (ih (max b y))

lemma foldl_max_mem (l : List ℚ) (b : ℚ) : l.foldl max b ∈ b :: l := by
  induction l generalizing b with
  | nil => simp
  | cons y ys ih =>
    rcases List.mem_cons.mp (ih (max b y)) with h | h
    · rcases max_choice b y with hb | hy
      · rw [List.foldl_cons, h, hb]; exact List.mem_cons_self _ _
      · rw [List.foldl_cons, h, hy]
        exact List.mem_cons_of_mem _ (List.mem_cons_self _ _)
    · exact List.mem_cons_of_mem _ (List.mem_cons_of_mem _ h)

lemma le_foldl_max_of_mem (l : List ℚ) (b z : ℚ) (hz : z ∈ b :: l) :
    z ≤ l.foldl max b := by
  induction l generalizing b with
  | nil =>
    have hb : z = b := by simpa using hz
    simp [hb]
  | cons y ys ih =>
    simp only [List.mem_cons] at hz
    rcases hz with hz | hz | hz
    · subst hz; exact le_trans (le_max_left z y) (le_foldl_max ys (max z y))
    · subst hz; exact le_trans (le_max_right b z) (le_foldl_max ys (max b z))
    · exact ih (max b y) (List.mem_cons_of_mem _ hz)

lemma foldl_min_le (l : List ℚ) (b : ℚ) : l.foldl min b ≤ b := by
  induction l generalizing b with
  | nil => exact le_refl b
  | cons y ys ih => exact le_trans (ih (min b y)) (min_le_left b y)

lemma foldl_min_mem (l : List ℚ) (b : ℚ) : l.foldl min b ∈ b :: l := by
  induction l generalizing b with
  | nil => simp
  | cons y ys ih =>
    rcases List.mem_cons.mp (ih (min b y)) with h | h
    · rcases min_choice b y with hb | hy
      · rw [List.foldl_cons, h, hb]; exact List.mem_cons_self _ _
      · rw [List.foldl_cons, h, hy]
        exact List.mem_cons_of_mem _ (List.mem_cons_self _ _)
    · exact List.mem_cons_of_mem _ (List.mem_cons_of_mem _ h)

lemma foldl_min_le_of_mem (l : List ℚ) (b z : ℚ) (hz : z ∈ b :: l) :
    l.foldl min b ≤ z := by
  induction l generalizing b with
  | nil =>
    have hb : z = b := by simpa using hz
    simp [hb]
  | cons y ys ih =>
    simp only [List.mem_cons] at hz
    rcases hz with hz | hz | hz
    · subst hz; exact le_trans (foldl_min_le ys (min z y)) (min_le_left z y)
    · subst hz; exact le_trans (foldl_min_le ys (min b z)) (min_le_right b z)
    · exact ih (min b y) (List.mem_cons_of_mem _ hz)

/-- `s_max` yields Python's `max(data)`: on an empty sequence `max` raises
`ValueError: max() arg is an empty sequence`; otherwise it is the left fold
of the binary maximum over the sequence. -/
def s_max (data : List ℚ) : Except String (List ℚ) :=
  match data with
  | [] => .error "max() arg is an empty sequence"
  | x :: xs => .ok [xs.foldl max x]

/-- `s_min` yields Python's `min(data)`, raising on an empty sequence. -/
def s_min (data : List ℚ) : Except String (List ℚ) :=
  match data with
  | [] => .error "min() arg is an empty sequence"
  | x :: xs => .ok [xs.foldl min x]

/-- The driver's output loop with its try/except (calc.py lines 292-295):
on success every result is printed and the process ends with exit code 0; a
raised `ValueError` is caught, reported via `help_quit`, and the process
ends with exit code 1. The result is (printed values, exit code). -/
def runStream (t : List ℚ → Except String (List ℚ)) (data : List ℚ) :
    List ℚ × ℕ :=
  match t data with
  | .ok ys => (ys, 0)
  | .error _ => ([], 1)

/-- Claim C3: on the empty sequence `s_max` and `s_min` signal an
"empty input" error which the driver catches and reports with exit code 1
(no crash, no silent sentinel); on every non-empty sequence they emit the
maximum (resp. minimum) element of the input. -/
theorem max_min_empty_input_error :
    (∃ e, s_max [] = .error e) ∧ (∃ e, s_min [] = .error e) ∧
    (runStream s_max []).2 = 1 ∧ (runStream s_min []).2 = 1 ∧
    (∀ (x : ℚ) (xs : List ℚ), ∃ y, s_max (x :: xs) = .ok [y] ∧
      y ∈ x :: xs ∧ ∀ z ∈ x :: xs, z ≤ y) ∧
    (∀ (x : ℚ) (xs : List ℚ), ∃ y, s_min (x :: xs) = .ok [y] ∧
      y ∈ x :: xs ∧ ∀ z ∈ x :: xs, y ≤ z) := by
  refine ⟨⟨_, rfl⟩, ⟨_, rfl⟩, rfl, rfl, fun x xs => ?_, fun x xs => ?_⟩
  · exact ⟨xs.foldl max x, rfl, foldl_max_mem xs x,
      fun z hz => le_foldl_max_of_mem xs x z hz⟩
  · exact ⟨xs.foldl min x, rfl, foldl_min_mem xs x,
      fun z hz => foldl_min_le_of_mem xs x z hz⟩

/-! ## The parser (calc.py lines 289-290) -/

/-- Python's `str.strip()` on the character list: drop whitespace from both
ends. -/
def stripChars (l : List Char) : List Char :=
  ((l.dropWhile Char.isWhitespace).reverse.dropWhile Char.isWhitespace).reverse

/-- `x.strip()` for a raw line `x`. -/
def pyStrip (s : String) : String := ⟨stripChars s.data⟩

/-- Python's `x[0]` for a line known to be non-empty; the default is never
reached because the code only evaluates `x[0]` after
`len(x.strip()) > 0`. -/
def firstChar (s : String) : Char := s.data.headD '?'

/-- The filter of the parsing generator: a raw line is kept when
`len(x.strip()) > 0 and x[0] != '#'` — the `#` test looks at the FIRST
character of the raw line, not at its first non-whitespace character. -/
def keepLine (x : String) : Bool :=
  decide (0 < (pyStrip x).data.length) && (firstChar x != '#')

/-- The message of the `ValueError` Python's `float()` raises on an
unparseable string (fatal for the run). -/
def parseErrMsg : String := "could not convert string to float"

/-- The parsing generator `(float(x.strip()) for x in read(...) if ...)` as
consumed inside the driver's try block: `parse` stands for Python's builtin
`float()` (`none` = `ValueError`); a parse failure aborts the whole run. -/
def parsePipeline (parse : String → Option ℚ) : List String → Except String (List ℚ)
  | [] => .ok []
  | x :: xs =>
    if keepLine x then
      match parse (pyStrip x) with
      | none => .error parseErrMsg
      | some v =>
        match parsePipeline parse xs with
        | .ok vs => .ok (v :: vs)
        | .error e => .error e
    else parsePipeline parse xs

/-- Spec-side helper: parse every line of a list, `none` as soon as one
fails. -/
def optParseAll (parse : String → Option ℚ) : List String → Option (List ℚ)
  | [] => some []
  | y :: ys =>
    match parse (pyStrip y), optParseAll parse ys with
    | some v, some vs => some (v :: vs)
    | _, _ => none

/-- The discard condition as the specification words it: the trimmed line is
empty, or its first non-whitespace character is `#`. -/
def specDiscard (x : String) : Bool :=
  ((pyStrip x).data.length == 0) || (firstChar (pyStrip x) == '#')

lemma parsePipeline_eq (parse : String → Option ℚ) (lines : List String) :
    parsePipeline parse lines =
      match optParseAll parse (lines.filter keepLine) with
      | some vs => Except.ok vs
      | none => Except.error parseErrMsg := by
  induction lines with
  | nil => rfl
  | cons x xs ih =>
    by_cases hx : keepLine x
    · simp only [parsePipeline, if_pos hx, List.filter_cons_of_pos hx, optParseAll, ih]
      cases parse (pyStrip x) with
      | none => rfl
      | some v =>
        cases optParseAll parse (xs.filter keepLine) with
        | none => rfl
        | some vs => rfl
    · simp only [parsePipeline, if_neg hx,
        List.filter_cons_of_neg (by simpa using hx), ih]

/-- Counterexample to claim C4: the raw line `" #"` (whitespace, then `#`)
is kept by the code even though, after trimming, its first non-whitespace
character is `#` — the spec's discard condition and the code's disagree,
and the kept line then aborts the run as a parse failure. -/
theorem whitespace_comment_kept_counterexample :
    keepLine " #" = true ∧ specDiscard " #" = true ∧
    parsePipeline (fun _ => none) [" #"] = .error parseErrMsg := by
  refine ⟨by decide, by decide, ?_⟩
  have h : keepLine " #" = true := by decide
  simp [parsePipeline, h]

/-- Claim C4 as amended: a raw line is discarded iff, after trimming, it is
empty or the RAW line's first character is `#` (so a line of whitespace
followed by `#` is retained); every retained line is trimmed and parsed as a
floating-point number, and a parse failure is a fatal error for the whole
run (the pipeline yields an error, not a partial result). -/
theorem parser_filter_amended (parse : String → Option ℚ)
    (lines : List String) (x : String) :
    (keepLine x = false ↔ ((pyStrip x).data = [] ∨ firstChar x = '#')) ∧
    (∀ vs, optParseAll parse (lines.filter keepLine) = some vs →
      parsePipeline parse lines = .ok vs) ∧
    (optParseAll parse (lines.filter keepLine) = none →
      parsePipeline parse lines = .error parseErrMsg) := by
  refine ⟨?_, ?_, ?_⟩
  · simp only [keepLine, Bool.and_eq_false_iff, decide_eq_false_iff_not,
      not_lt, Nat.le_zero, List.length_eq_zero, bne_eq_false_iff_eq]
  · intro vs h
    rw [parsePipeline_eq, h]
  · intro h
    rw [parsePipeline_eq, h]

/-! ## The command registry (calc.py lines 174-198) -/

/-- An individual command: its transformation (`None` = identity
passthrough) and its help text. The duck-typed formatter of the source is
heterogeneous across commands and is modelled separately
(`hist_formatter` below, `str` elsewhere). -/
structure Command where
  function : Option (List ℚ → List ℚ)
  help : String

/-- Lookup in the Python dict `self._commands` (`self._commands[command]`):
the value stored under the key, or `none` (`KeyError`). -/
def dictLookup : List (String × Command) → String → Option Command
  | [], _ => none
  | (k, v) :: rest, name => if name = k then some v else dictLookup rest name

/-- Assignment into the Python dict `self._commands`: replace the value at
an existing key (keeping its position), append a brand-new key at the
end. -/
def dictInsert (reg : List (String × Command)) (name : String) (v : Command) :
    List (String × Command) :=
  if (dictLookup reg name).isSome then
    reg.map (fun kv => if kv.1 = name then (name, v) else kv)
  else reg ++ [(name, v)]

/-- `CommandProcessor.register_command`: store the given command, or build
one from the function and help arguments, under `name` — a plain dict
assignment. -/
def register_command (reg : List (String × Command)) (name : String)
    (command : Option Command) (function : Option (List ℚ → List ℚ))
    (help : String) : List (String × Command) :=
  match command with
  | some c => dictInsert reg name c
  | none => dictInsert reg name ⟨function, help⟩

/-- A first and a second registration under the same name, distinguished by
their help text. -/
def cmdFirst : Command := ⟨none, "first"⟩

/-- See `cmdFirst`. -/
def cmdSecond : Command := ⟨none, "second"⟩

/-- Counterexample to claim C8: registering `"sum"` twice leaves the SECOND
command in the registry — `register_command` silently overwrites, so lookup
does not return the originally registered command. -/
theorem register_overwrites_counterexample :
    dictLookup (register_command (register_command [] "sum" (some cmdFirst)
        none "") "sum" (some cmdSecond) none "") "sum" = some cmdSecond ∧
    cmdSecond.help ≠ cmdFirst.help :=
  ⟨rfl, by decide⟩

lemma dictLookup_isSome_iff_mem_keys (reg : List (String × Command))
    (name : String) :
    (dictLookup reg name).isSome ↔ name ∈ reg.map Prod.fst := by
  induction reg with
  | nil => simp [dictLookup]
  | cons kv rest ih =>
    obtain ⟨k, b⟩ := kv
    by_cases hk : name = k
    · subst hk
      simp [dictLookup]
    · simp [dictLookup, if_neg hk, hk, ih]

lemma dictLookup_map_replace (rest : List (String × Command)) (name : String)
    (v : Command) (n : String) :
    dictLookup (rest.map (fun kv => if kv.1 = name then (name, v) else kv)) n =
      if n = name then (dictLookup rest name).map (fun _ => v)
      else dictLookup rest n := by
  induction rest with
  | nil =>
    by_cases hn : n = name <;> simp [dictLookup, hn]
  | cons kv rest ih =>
    obtain ⟨k, b⟩ := kv
    simp only [List.map_cons]
    by_cases hk : k = name
    · rw [show (if (k, b).1 = name then (name, v) else (k, b)) = (name, v)
        from if_pos hk]
      by_cases hn : n = name
      · subst hn
        have hnk : n = k := hk.symm
        simp [dictLookup, hnk]
      · have hnk : ¬ (n = k) := fun he => hn (he.trans hk)
        simp only [dictLookup, if_neg hn, if_neg hnk, ih, if_neg hn]
    · rw [show (if (k, b).1 = name then (name, v) else (k, b)) = (k, b)
        from if_neg hk]
      by_cases hnk : n = k
      · have hn : ¬ (n = name) := fun he => hk (hnk.symm.trans he)
        simp only [dictLookup, if_pos hnk, if_neg hn]
      · have hkn : ¬ (name = k) := fun he => hk he.symm
        simp only [dictLookup, if_neg hnk, ih, if_neg hkn]

lemma dictInsert_lookup_self (reg : List (String × Command)) (name : String)
    (v : Command) : dictLookup (dictInsert reg name v) name = some v := by
  unfold dictInsert
  by_cases h : (dictLookup reg name).isSome
  · rw [if_pos h, dictLookup_map_replace, if_pos rfl]
    rcases Option.isSome_iff_exists.mp h with ⟨c, hc⟩
    rw [hc]
    rfl
  · rw [if_neg h]
    induction reg with
    | nil => simp [dictLookup]
    | cons kv rest ih =>
      obtain ⟨k, b⟩ := kv
      have hk : ¬ (name = k) := by
        intro he
        exact h (by simp [dictLookup, if_pos he])
      have h' : ¬ (dictLookup rest name).isSome := by
        intro hs
        exact h (by simpa [dictLookup, if_neg hk] using hs)
      simp only [List.cons_append, dictLookup, if_neg hk]
      exact ih h'

lemma dictInsert_lookup_other (reg : List (String × Command)) (name n : String)
    (v : Command) (hn : n ≠ name) :
    dictLookup (dictInsert reg name v) n = dictLookup reg n := by
  unfold dictInsert
  by_cases h : (dictLookup reg name).isSome
  · rw [if_pos h, dictLookup_map_replace, if_neg hn]
  · rw [if_neg h]
    clear h
    induction reg with
    | nil => simp [dictLookup, if_neg hn]
    | cons kv rest ih =>
      obtain ⟨k, b⟩ := kv
      by_cases hv : n = k
      · simp [dictLookup, if_pos hv]
      · simp only [List.cons_append, dictLookup, if_neg hv]
        exact ih

lemma dictInsert_keys_nodup (reg : List (String × Command)) (name : String)
    (v : Command) (h : (reg.map Prod.fst).Nodup) :
    ((dictInsert reg name v).map Prod.fst).Nodup := by
  unfold dictInsert
  by_cases hs : (dictLookup reg name).isSome
  · rw [if_pos hs]
    have hkeys : (reg.map (fun kv => if kv.1 = name then (name, v) else kv)).map
        Prod.fst = reg.map Prod.fst := by
      rw [List.map_map]
      apply List.map_congr_left
      intro kv _
      by_cases hk : kv.1 = name
      · simp [Function.comp, if_pos hk, hk]
      · simp [Function.comp, if_neg hk]
    rw [hkeys]
    exact h
  · rw [if_neg hs]
    rw [dictLookup_isSome_iff_mem_keys] at hs
    simp only [List.map_append, List.map_cons, List.map_nil]
    rw [List.nodup_append]
    exact ⟨h, List.nodup_singleton name, by simpa using hs⟩

/-- Claim C8 as amended: registry keys stay unique, but registration under
an existing name silently OVERWRITES: after a second `register_command` with
the same name, lookup returns the most recently registered command (not the
original), while every other name is untouched. -/
theorem register_overwrite_amended (reg : List (String × Command))
    (name : String) (c : Command) (h : (reg.map Prod.fst).Nodup) :
    dictLookup (register_command reg name (some c) none "") name = some c ∧
    (∀ n, n ≠ name →
      dictLookup (register_command reg name (some c) none "") n =
        dictLookup reg n) ∧
    ((register_command reg name (some c) none "").map Prod.fst).Nodup := by
  refine ⟨dictInsert_lookup_self reg name c,
    fun n hn => dictInsert_lookup_other reg name n c hn,
    dictInsert_keys_nodup reg name c h⟩

/-- Witness for `register_overwrite_amended` at a concrete registry. -/
theorem register_overwrite_amended_witness :
    dictLookup (register_command [("max", cmdFirst)] "sum" (some cmdSecond)
        none "") "sum" = some cmdSecond ∧
    (∀ n, n ≠ "sum" →
      dictLookup (register_command [("max", cmdFirst)] "sum" (some cmdSecond)
        none "") n = dictLookup [("max", cmdFirst)] n) ∧
    ((register_command [("max", cmdFirst)] "sum" (some cmdSecond) none
        "").map Prod.fst).Nodup :=
  register_overwrite_amended [("max", cmdFirst)] "sum" cmdSecond (by decide)

/-! ## `summary` (calc.py lines 165-172) -/

/-- Python's `min(data2)` over the materialized list (0 is never returned:
on the empty list `min` raises, which `summaryOut` models below). -/
def dataMin : List ℚ → ℚ
  | [] => 0
  | x :: xs => xs.foldl min x

/-- Python's `max(data2)`; see `dataMin` (the empty-list default 1 matches
`numpy.histogram`'s empty range `(0, 1)`, used by `hist` below). -/
def dataMax : List ℚ → ℚ
  | [] => 1
  | x :: xs => xs.foldl max x

/-- `numpy.mean`: the sum divided by the number of values. -/
def npMean (l : List ℚ) : ℚ := l.foldl (· + ·) 0 / (l.length : ℚ)

/-- `numpy.var` with its default `ddof = 0`: the POPULATION variance, the
mean of the squared deviations (divisor `n`). -/
def npVar (l : List ℚ) : ℚ :=
  (l.map (fun x => (x - npMean l) ^ 2)).foldl (· + ·) 0 / (l.length : ℚ)

/-- The sample variance the specification asks for (spec-side definition,
divisor `n - 1`). -/
def sampleVar (l : List ℚ) : ℚ :=
  (l.map (fun x => (x - npMean l) ^ 2)).foldl (· + ·) 0 / ((l.length : ℚ) - 1)

/-- `numpy.median`: sort, then take the middle element (odd length) or the
mean of the two middle elements (even length). -/
def npMedian (l : List ℚ) : ℚ :=
  let s := l.insertionSort (· ≤ ·)
  if l.length % 2 = 1 then s.getD (l.length / 2) 0
  else (s.getD (l.length / 2 - 1) 0 + s.getD (l.length / 2) 0) / 2

/-- The header line `summary` prints before computing any statistic. -/
def headerString : String := "size\tmin\tmean\tmedian\tmax\tvar\tstd_dev"

/-- The 7 fields of `summary`'s row, in order: count, min, mean, median,
max, variance, standard deviation. `pyStr` stands for Python's
`str(round(·, 2))`; `pyStrSqrt` stands for `str(round(np.std(·), 2))`,
i.e. formatting the square root of the variance it is given (`np.std` is
the square root of `np.var`). -/
def summaryFields (pyStr : ℚ → String) (pyStrSqrt : ℚ → String)
    (l : List ℚ) : List String :=
  [toString l.length, pyStr (dataMin l), pyStr (npMean l), pyStr (npMedian l),
   pyStr (dataMax l), pyStr (npVar l), pyStrSqrt (npVar l)]

/-- `summary(data)`: materialize the data, PRINT THE HEADER, then build the
single tab-separated row — `min(data2)` raises `ValueError` on an empty
list, after the header is already out. The result is (lines printed to
stdout so far, the row or the error). -/
def summaryOut (pyStr pyStrSqrt : ℚ → String) (l : List ℚ) :
    List String × Except String String :=
  ([headerString],
   if l = [] then .error "min() arg is an empty sequence"
   else .ok (String.intercalate "\t" (summaryFields pyStr pyStrSqrt l)))

/-- The driver running the `summary` command (calc.py lines 292-295): the
row is printed after the header on success (exit 0); a `ValueError` is
caught and reported after whatever was already printed (exit 1). The result
is (stdout lines, exit code). -/
def runSummary (pyStr pyStrSqrt : ℚ → String) (l : List ℚ) :
    List String × ℕ :=
  match summaryOut pyStr pyStrSqrt l with
  | (out, .ok row) => (out ++ [row], 0)
  | (out, .error _) => (out, 1)

/-- Counterexample to claim C5: on the input `[0, 2]` the variance field is
`np.var [0, 2] = 1` (population variance, divisor `n`), not the sample
variance `2` (divisor `n - 1`) the claim asserts. -/
theorem summary_variance_counterexample :
    npVar [0, 2] = 1 ∧ sampleVar [0, 2] = 2 ∧ npVar [0, 2] ≠ sampleVar [0, 2] := by
  refine ⟨?_, ?_, ?_⟩ <;> norm_num [npVar, sampleVar, npMean]

/-- Claim C5 as amended: for every non-empty input, `summary` emits one
tab-separated row of exactly 7 fields (count, min, mean, median, max,
variance, std-dev) preceded by the header line, where the variance and
std-dev fields are the POPULATION statistics (divisor `n`: the variance
field is `np.var`, the mean of squared deviations, and the std-dev field
formats its square root). -/
theorem summary_row_structure (pyStr pyStrSqrt : ℚ → String) (l : List ℚ)
    (h : l ≠ []) :
    (summaryOut pyStr pyStrSqrt l).1 = [headerString] ∧
    (summaryOut pyStr pyStrSqrt l).2 =
      .ok (String.intercalate "\t" (summaryFields pyStr pyStrSqrt l)) ∧
    (summaryFields pyStr pyStrSqrt l).length = 7 ∧
    (summaryFields pyStr pyStrSqrt l).getD 0 "" = toString l.length ∧
    (summaryFields pyStr pyStrSqrt l).getD 5 "" = pyStr (npVar l) ∧
    (summaryFields pyStr pyStrSqrt l).getD 6 "" = pyStrSqrt (npVar l) ∧
    npVar l =
      (l.map (fun x => (x - npMean l) ^ 2)).foldl (· + ·) 0 / (l.length : ℚ) := by
  refine ⟨rfl, ?_, rfl, rfl, rfl, rfl, rfl⟩
  simp only [summaryOut, if_neg h]

/-- Witness for `summary_row_structure` at the concrete input `[0, 2]`. -/
theorem summary_row_structure_witness :
    (summaryOut toString toString [0, 2]).1 = [headerString] ∧
    (summaryOut toString toString [0, 2]).2 =
      .ok (String.intercalate "\t" (summaryFields toString toString [0, 2])) ∧
    (summaryFields toString toString [0, 2]).length = 7 ∧
    (summaryFields toString toString [0, 2]).getD 0 "" =
      toString ([0, 2] : List ℚ).length ∧
    (summaryFields toString toString [0, 2]).getD 5 "" =
      toString (npVar [0, 2]) ∧
    (summaryFields toString toString [0, 2]).getD 6 "" =
      toString (npVar [0, 2]) ∧
    npVar [0, 2] =
      (([0, 2] : List ℚ).map (fun x => (x - npMean [0, 2]) ^ 2)).foldl
        (· + ·) 0 / (([0, 2] : List ℚ).length : ℚ) :=
  summary_row_structure toString toString [0, 2] (by decide)

/-- Claim C10: on an empty input, `summary` writes its header line to
standard output BEFORE computing any statistic, then fails on `min` of the
empty list; the driver catches the error, so the run still shows the header
on stdout and exits with code 1. -/
theorem summary_empty_partial_output (pyStr pyStrSqrt : ℚ → String) :
    runSummary pyStr pyStrSqrt [] = ([headerString], 1) ∧
    (summaryOut pyStr pyStrSqrt []).1 = [headerString] ∧
    (∃ e, (summaryOut pyStr pyStrSqrt []).2 = .error e) :=
  ⟨rfl, rfl, ⟨_, rfl⟩⟩

/-! ## `hist_formatter` (calc.py lines 87-102) -/

/-- Python's `s.rjust(w)`: left-pad with spaces to width `w`. -/
def rjust (w : ℕ) (s : String) : String :=
  ⟨List.replicate (w - s.data.length) ' ' ++ s.data⟩

/-- Python's `max` over a list of naturals (the source only applies it to
non-empty lists, where the fold from 0 coincides with `max` over the
elements). -/
def natListMax (l : List ℕ) : ℕ := l.foldl Nat.max 0

/-- The guard `max_val + 5 + (max_bin_len*2) > max_width` deciding whether
bars are rescaled. -/
def scalingNeeded (max_width max_bin_len max_val : ℕ) : Bool :=
  decide (max_width < max_val + 5 + max_bin_len * 2)

/-- The rescaling `max_available_width * v // max_val`. The values are
numpy integers: numpy floor-divide by zero yields 0 (with a warning), which
natural division also gives; a negative available width yields an empty bar
both in Python (`tick * negative = ''`) and here (truncated subtraction). -/
def scaleVals (max_width max_bin_len : ℕ) (vals : List ℕ) : List ℕ :=
  vals.map (fun v => (max_width - 5 - max_bin_len * 2) * v / natListMax vals)

/-- `hist_formatter(x, tick_char, max_width)`: format the bin edges, pad
them to a common width, rescale the bars when the guard fires, and render
one `[lower,upper): bar` line per bin (the last bin closed with `]`).
`fmt` stands for Python's `'%0.2g' % b` edge formatting. `none` models the
exceptions Python would raise (`max()` on an empty sequence, or indexing
`s_bins` past its end when fewer than `len(vals)+1` edges are given). -/
def hist_formatter (fmt : ℚ → String) (tick : Char) (max_width : ℕ)
    (vals : List ℕ) (bins : List ℚ) : Option String :=
  if vals = [] ∨ bins = [] then none
  else if bins.length < vals.length + 1 then none
  else
    let s_bins0 := bins.map fmt
    let max_bin_len := natListMax (s_bins0.map String.length)
    let s_bins := s_bins0.map (rjust max_bin_len)
    let max_val := natListMax vals
    let vals2 := if scalingNeeded max_width max_bin_len max_val
      then scaleVals max_width max_bin_len vals else vals
    let row := fun (i : ℕ) (closing : String) =>
      "[" ++ s_bins.getD i "" ++ "," ++ s_bins.getD (i + 1) "" ++ closing ++
        (⟨List.replicate (vals2.getD i 0) tick⟩ : String)
    some (String.intercalate "\n"
        ((List.range (vals.length - 1)).map (fun i => row i "): ")) ++
      "\n" ++ row (vals.length - 1) "]: ")

lemma natListMax_eq_zero (l : List ℕ) (h : ∀ v ∈ l, v = 0) :
    natListMax l = 0 := by
  unfold natListMax
  induction l with
  | nil => rfl
  | cons x xs ih =>
    have hx : x = 0 := h x (List.mem_cons_self _ _)
    have := ih (fun v hv => h v (List.mem_cons_of_mem _ hv))
    simpa [hx] using this

lemma foldl_natMax_le (l : List ℕ) (c : ℕ) :
    ∀ acc, acc ≤ c → (∀ v ∈ l, v ≤ c) → l.foldl Nat.max acc ≤ c := by
  induction l with
  | nil => exact fun acc hacc _ => hacc
  | cons x xs ih =>
    intro acc hacc h
    exact ih (Nat.max acc x)
      (Nat.max_le.mpr ⟨hacc, h x (List.mem_cons_self _ _)⟩)
      (fun v hv => h v (List.mem_cons_of_mem _ hv))

/-- Claim C9: for a histogram whose counts are all zero, the bar-scaling
division by `max_val` is never executed (the guard is false: with the
program's `max_width = 80` and `%0.2g` edge labels of at most 37
characters, `0 + 5 + 2*max_bin_len` cannot exceed 80), and the formatter
returns a rendered string. -/
theorem hist_formatter_zero_counts (fmt : ℚ → String) (tick : Char)
    (vals : List ℕ) (bins : List ℚ)
    (h1 : vals ≠ []) (h2 : bins.length = vals.length + 1)
    (h3 : ∀ v ∈ vals, v = 0) (h4 : ∀ b ∈ bins, (fmt b).length ≤ 37) :
    scalingNeeded 80 (natListMax ((bins.map fmt).map String.length))
      (natListMax vals) = false ∧
    ∃ s, hist_formatter fmt tick 80 vals bins = some s := by
  constructor
  · have hv : natListMax vals = 0 := natListMax_eq_zero vals h3
    have hl : natListMax ((bins.map fmt).map String.length) ≤ 37 := by
      apply foldl_natMax_le _ 37 0 (Nat.zero_le 37)
      intro v hv'
      rcases List.mem_map.mp hv' with ⟨s, hs, hlen⟩
      rcases List.mem_map.mp hs with ⟨b, hb, hfmt⟩
      rw [← hlen, ← hfmt]
      exact h4 b hb
    rw [hv]
    simp only [scalingNeeded, decide_eq_false_iff_not, not_lt]
    omega
  · have hne : ¬ (vals = [] ∨ bins = []) := by
      rintro (hv | hb)
      · exact h1 hv
      · rw [hb] at h2; simp at h2
    have hlen : ¬ (bins.length < vals.length + 1) := by omega
    simp only [hist_formatter, if_neg hne, if_neg hlen]
    exact ⟨_, rfl⟩

/-- Witness for `hist_formatter_zero_counts` at a concrete two-bin,
all-zero histogram. -/
theorem hist_formatter_zero_counts_witness :
    scalingNeeded 80
      (natListMax ((([0, 1, 2] : List ℚ).map (fun _ => "0")).map
        String.length)) (natListMax [0, 0]) = false ∧
    ∃ s, hist_formatter (fun _ => "0") '#' 80 [0, 0] [0, 1, 2] = some s :=
  hist_formatter_zero_counts (fun _ => "0") '#' [0, 0] [0, 1, 2]
    (by decide) (by decide) (by decide) (by decide)

/-! ## `hist` (calc.py lines 150-156), via `numpy.histogram` -/

/-- The lower end of the histogram range `numpy.histogram` uses with no
explicit range: the data minimum, expanded to `min - 1/2` when all values
are equal (numpy widens a degenerate range by 0.5 on each side; the
defaults of `dataMin`/`dataMax` give numpy's empty-array range `(0, 1)`). -/
def histLo (data : List ℚ) : ℚ :=
  if dataMin data = dataMax data then dataMin data - 1/2 else dataMin data

/-- The upper end of the histogram range; see `histLo`. -/
def histHi (data : List ℚ) : ℚ :=
  if dataMin data = dataMax data then dataMin data + 1/2 else dataMax data

/-- The i-th edge of `K` equal-width bins over `[lo, hi]`:
`lo + i*(hi-lo)/K`. -/
def binEdge (lo hi : ℚ) (K i : ℕ) : ℚ := lo + i * (hi - lo) / K

/-- The `K + 1` bin edges. -/
def histEdges (lo hi : ℚ) (K : ℕ) : List ℚ :=
  (List.range (K + 1)).map (binEdge lo hi K)

/-- Membership of a value in bin `j` out of `K`: half-open
`[e_j, e_(j+1))`, except the last bin which is closed, `[e_(K-1), e_K]`. -/
def inBin (lo hi : ℚ) (K j : ℕ) (x : ℚ) : Bool :=
  if j + 1 = K then
    decide (binEdge lo hi K j ≤ x) && decide (x ≤ binEdge lo hi K K)
  else
    decide (binEdge lo hi K j ≤ x) && decide (x < binEdge lo hi K (j + 1))

/-- The `K` bin counts: how many data values fall in each bin. -/
def histCounts (lo hi : ℚ) (K : ℕ) (data : List ℚ) : List ℕ :=
  (List.range K).map (fun j => (data.filter (inBin lo hi K j)).length)

/-- `hist`'s single yielded value, `numpy.histogram(list(data), bins=K)`:
the pair (counts, edges). -/
def hist (K : ℕ) (data : List ℚ) : List ℕ × List ℚ :=
  (histCounts (histLo data) (histHi data) K data,
   histEdges (histLo data) (histHi data) K)

lemma dataMin_le_dataMax (data : List ℚ) : dataMin data ≤ dataMax data := by
  cases data with
  | nil => norm_num [dataMin, dataMax]
  | cons x xs =>
    exact le_trans (foldl_min_le xs x) (le_foldl_max xs x)

lemma histLo_lt_histHi (data : List ℚ) : histLo data < histHi data := by
  unfold histLo histHi
  by_cases h : dataMin data = dataMax data
  · rw [if_pos h, if_pos h]
    linarith
  · rw [if_neg h, if_neg h]
    exact lt_of_le_of_ne (dataMin_le_dataMax data) h

lemma mem_histRange (data : List ℚ) (x : ℚ) (hx : x ∈ data) :
    histLo data ≤ x ∧ x ≤ histHi data := by
  have hbounds : dataMin data ≤ x ∧ x ≤ dataMax data := by
    cases data with
    | nil => simp at hx
    | cons y ys =>
      exact ⟨foldl_min_le_of_mem ys y x hx, le_foldl_max_of_mem ys y x hx⟩
  unfold histLo histHi
  by_cases h : dataMin data = dataMax data
  · rw [if_pos h, if_pos h]
    constructor <;> linarith [hbounds.1, hbounds.2, h ▸ hbounds.2]
  · rw [if_neg h, if_neg h]
    exact hbounds

lemma binEdge_le_iff (lo hi x : ℚ) (K j : ℕ) (hK : (0 : ℚ) < (K : ℚ)) :
    binEdge lo hi K j ≤ x ↔ (j : ℚ) * (hi - lo) ≤ (x - lo) * (K : ℚ) := by
  unfold binEdge
  rw [show (lo + (j : ℚ) * (hi - lo) / (K : ℚ) ≤ x) ↔
      ((j : ℚ) * (hi - lo) / (K : ℚ) ≤ x - lo) from
    ⟨fun h => by linarith, fun h => by linarith⟩]
  exact div_le_iff₀ hK

lemma lt_binEdge_iff (lo hi x : ℚ) (K j : ℕ) (hK : (0 : ℚ) < (K : ℚ)) :
    x < binEdge lo hi K j ↔ (x - lo) * (K : ℚ) < (j : ℚ) * (hi - lo) := by
  unfold binEdge
  rw [show (x < lo + (j : ℚ) * (hi - lo) / (K : ℚ)) ↔
      (x - lo < (j : ℚ) * (hi - lo) / (K : ℚ)) from
    ⟨fun h => by linarith, fun h => by linarith⟩]
  exact lt_div_iff₀ hK

lemma binEdge_mono (lo hi : ℚ) (K i j : ℕ) (hw : lo ≤ hi) (hij : i ≤ j) :
    binEdge lo hi K i ≤ binEdge lo hi K j := by
  unfold binEdge
  rcases Nat.eq_zero_or_pos K with hK | hK
  · simp [hK]
  · have hKq : (0 : ℚ) < (K : ℚ) := by exact_mod_cast hK
    have hiq : (i : ℚ) ≤ (j : ℚ) := by exact_mod_cast hij
    have hw' : (0 : ℚ) ≤ hi - lo := by linarith
    have hmul := mul_le_mul_of_nonneg_right hiq hw'
    exact add_le_add_left ((div_le_div_iff_of_pos_right hKq).mpr hmul) lo

lemma binEdge_last (lo hi : ℚ) (K : ℕ) (hK : 0 < K) :
    binEdge lo hi K K = hi := by
  unfold binEdge
  have hKq : (K : ℚ) ≠ 0 := by
    exact_mod_cast Nat.pos_iff_ne_zero.mp hK
  rw [mul_comm, mul_div_assoc, div_self hKq, mul_one]
  ring

lemma inBin_left (lo hi x : ℚ) (K j : ℕ) (h : inBin lo hi K j x = true) :
    binEdge lo hi K j ≤ x := by
  unfold inBin at h
  by_cases hj : j + 1 = K
  · rw [if_pos hj] at h
    simp only [Bool.and_eq_true, decide_eq_true_eq] at h
    exact h.1
  · rw [if_neg hj] at h
    simp only [Bool.and_eq_true, decide_eq_true_eq] at h
    exact h.1

lemma inBin_right (lo hi x : ℚ) (K j : ℕ) (hj : j + 1 ≠ K)
    (h : inBin lo hi K j x = true) : x < binEdge lo hi K (j + 1) := by
  unfold inBin at h
  rw [if_neg hj] at h
  simp only [Bool.and_eq_true, decide_eq_true_eq] at h
  exact h.2

lemma inBin_disjoint (lo hi x : ℚ) (K i j : ℕ) (hlt : lo < hi)
    (hij : i < j) (hj : j < K)
    (hI : inBin lo hi K i x = true) (hJ : inBin lo hi K j x = true) :
    False := by
  have hi1 : i + 1 ≠ K := by omega
  have h1 : x < binEdge lo hi K (i + 1) := inBin_right lo hi x K i hi1 hI
  have h2 : binEdge lo hi K j ≤ x := inBin_left lo hi x K j hJ
  have h3 : binEdge lo hi K (i + 1) ≤ binEdge lo hi K j :=
    binEdge_mono lo hi K (i + 1) j (le_of_lt hlt) (by omega)
  linarith

lemma bin_unique (lo hi x : ℚ) (K : ℕ) (hlt : lo < hi) (j j' : ℕ)
    (hj : j < K) (hj' : j' < K)
    (hJ : inBin lo hi K j x = true) (hJ' : inBin lo hi K j' x = true) :
    j = j' := by
  rcases Nat.lt_trichotomy j j' with h | h | h
  · exact (inBin_disjoint lo hi x K j j' hlt h hj' hJ hJ').elim
  · exact h
  · exact (inBin_disjoint lo hi x K j' j hlt h hj hJ' hJ).elim

lemma exists_bin (lo hi x : ℚ) (K : ℕ) (hK : 1 ≤ K) (hlt : lo < hi)
    (hx1 : lo ≤ x) (hx2 : x ≤ hi) :
    ∃ j, j < K ∧ inBin lo hi K j x = true := by
  have hKq : (0 : ℚ) < (K : ℚ) := by exact_mod_cast hK
  have hw : (0 : ℚ) < hi - lo := by linarith
  set t : ℚ := (x - lo) * (K : ℚ) / (hi - lo) with ht
  have ht0 : 0 ≤ t := by
    apply div_nonneg _ (le_of_lt hw)
    exact mul_nonneg (by linarith) (le_of_lt hKq)
  set F : ℕ := ⌊t⌋₊ with hFdef
  by_cases hcase : F + 1 < K
  · refine ⟨F, by omega, ?_⟩
    unfold inBin
    rw [if_neg (by omega)]
    simp only [Bool.and_eq_true, decide_eq_true_eq]
    constructor
    · rw [binEdge_le_iff lo hi x K F hKq]
      have hFt : (F : ℚ) ≤ t := Nat.floor_le ht0
      rw [ht] at hFt
      exact (le_div_iff₀ hw).mp hFt
    · rw [lt_binEdge_iff lo hi x K (F + 1) hKq]
      have htF : t < (F : ℚ) + 1 := Nat.lt_floor_add_one t
      rw [ht] at htF
      have hmul := (div_lt_iff₀ hw).mp htF
      push_cast
      linarith
  · refine ⟨K - 1, by omega, ?_⟩
    unfold inBin
    rw [if_pos (by omega)]
    simp only [Bool.and_eq_true, decide_eq_true_eq]
    constructor
    · rw [binEdge_le_iff lo hi x K (K - 1) hKq]
      have hKF : K - 1 ≤ F := by omega
      have hq : ((K - 1 : ℕ) : ℚ) ≤ (F : ℚ) := by exact_mod_cast hKF
      have hFt : (F : ℚ) ≤ t := Nat.floor_le ht0
      have hle : ((K - 1 : ℕ) : ℚ) ≤ t := le_trans hq hFt
      rw [ht] at hle
      exact (le_div_iff₀ hw).mp hle
    · rw [binEdge_last lo hi K (by omega)]
      exact hx2

lemma sum_map_indicator_zero (p : ℕ → Bool) (l : List ℕ) :
    (∀ j ∈ l, p j = false) →
    (l.map (fun j => if p j = true then 1 else 0)).sum = 0 := by
  induction l with
  | nil => intro _; rfl
  | cons a as ih =>
    intro h
    have ha := h a (List.mem_cons_self _ _)
    simp [ha, ih (fun j hj => h j (List.mem_cons_of_mem _ hj))]

lemma sum_map_indicator_one (p : ℕ → Bool) (l : List ℕ) :
    ∀ j0 : ℕ, l.Nodup → j0 ∈ l → p j0 = true →
    (∀ j ∈ l, p j = true → j = j0) →
    (l.map (fun j => if p j = true then 1 else 0)).sum = 1 := by
  induction l with
  | nil => intro j0 _ hmem; simp at hmem
  | cons a as ih =>
    intro j0 hnd hmem hp huniq
    rcases List.nodup_cons.mp hnd with ⟨hna, hnd'⟩
    rcases List.mem_cons.mp hmem with he | hm
    · subst he
      have hz : (as.map (fun j => if p j = true then 1 else 0)).sum = 0 := by
        apply sum_map_indicator_zero
        intro j hj
        rcases Bool.eq_false_or_eq_true (p j) with ht | hf
        · exact absurd ((huniq j (List.mem_cons_of_mem _ hj) ht) ▸ hj) hna
        · exact hf
      simp [hp, hz]
    · have hpa : p a = false := by
        rcases Bool.eq_false_or_eq_true (p a) with ht | hf
        · have he : a = j0 := huniq a (List.mem_cons_self _ _) ht
          exact absurd (he ▸ hm) hna
        · exact hf
      have hrest := ih j0 hnd' hm hp
        (fun j hj ht => huniq j (List.mem_cons_of_mem _ hj) ht)
      simp [hpa, hrest]

lemma sum_map_add (l : List ℕ) (f g : ℕ → ℕ) :
    (l.map (fun j => f j + g j)).sum = (l.map f).sum + (l.map g).sum := by
  induction l with
  | nil => rfl
  | cons a as ih =>
    simp only [List.map_cons, List.sum_cons, ih]
    omega

lemma filter_length_cons (q : ℚ → Bool) (x : ℚ) (xs : List ℚ) :
    ((x :: xs).filter q).length =
      (xs.filter q).length + (if q x = true then 1 else 0) := by
  by_cases hq : q x = true
  · simp [List.filter_cons, hq]
  · simp [List.filter_cons, hq]

lemma sum_histCounts (lo hi : ℚ) (K : ℕ) (hK : 1 ≤ K) (hlt : lo < hi) :
    ∀ data : List ℚ, (∀ x ∈ data, lo ≤ x ∧ x ≤ hi) →
    (histCounts lo hi K data).sum = data.length := by
  intro data
  induction data with
  | nil =>
    intro _
    simp [histCounts]
  | cons x xs ih =>
    intro hb
    have hx := hb x (List.mem_cons_self _ _)
    have hxs := fun y hy => hb y (List.mem_cons_of_mem _ hy)
    unfold histCounts
    have hrw : (List.range K).map
          (fun j => ((x :: xs).filter (inBin lo hi K j)).length) =
        (List.range K).map
          (fun j => (xs.filter (inBin lo hi K j)).length +
            (if inBin lo hi K j x = true then 1 else 0)) := by
      apply List.map_congr_left
      intro j _
      exact filter_length_cons _ x xs
    rw [hrw, sum_map_add]
    have hone : ((List.range K).map
        (fun j => if inBin lo hi K j x = true then 1 else 0)).sum = 1 := by
      rcases exists_bin lo hi x K hK hlt hx.1 hx.2 with ⟨j0, hj0K, hj0⟩
      apply sum_map_indicator_one _ _ j0 (List.nodup_range K)
        (List.mem_range.mpr hj0K) hj0
      intro j hj ht
      exact bin_unique lo hi x K hlt j j0 (List.mem_range.mp hj) hj0K ht hj0
    have hih := ih hxs
    unfold histCounts at hih
    rw [hih, hone, List.length_cons]

lemma histEdges_sorted (lo hi : ℚ) (K : ℕ) (hw : lo ≤ hi) :
    List.Chain' (· ≤ ·) (histEdges lo hi K) := by
  unfold histEdges
  rw [List.chain'_map]
  have h := (List.chain'_range_succ
    (fun a b => binEdge lo hi K a ≤ binEdge lo hi K b) K).mpr ?_
  · exact h
  · intro m _
    exact binEdge_mono lo hi K m (m + 1) hw (by omega)

/-- Claim C6: for every non-empty input sequence and bin count `K ≥ 1`,
`hist` emits a single (counts, edges) result in which the bin counts sum
to the number of input values, the number of edges is the number of bins
plus one, and the edges are non-decreasing. -/
theorem hist_invariants (K : ℕ) (data : List ℚ) (hK : 1 ≤ K)
    (_hd : data ≠ []) :
    (hist K data).1.sum = data.length ∧
    (hist K data).2.length = (hist K data).1.length + 1 ∧
    List.Chain' (· ≤ ·) (hist K data).2 := by
  refine ⟨?_, ?_, ?_⟩
  · exact sum_histCounts (histLo data) (histHi data) K hK
      (histLo_lt_histHi data) data (fun x hx => mem_histRange data x hx)
  · simp [hist, histEdges, histCounts]
  · exact histEdges_sorted (histLo data) (histHi data) K
      (le_of_lt (histLo_lt_histHi data))

/-- Witness for `hist_invariants`: two bins over the data `[1, 3]`. -/
theorem hist_invariants_witness :
    (hist 2 [1, 3]).1.sum = ([1, 3] : List ℚ).length ∧
    (hist 2 [1, 3]).2.length = (hist 2 [1, 3]).1.length + 1 ∧
    List.Chain' (· ≤ ·) (hist 2 [1, 3]).2 :=
  hist_invariants 2 [1, 3] (by decide) (by decide)

end StreamCalc
